import Mathlib

/-!
Shallow embedding of the Quantum-Traffic-Priority-Routing repository
(src/qubo_builder.py, src/solver.py, src/priority_logic.py,
src/traffic_simulator.py, src/network_builder.py) and proofs about it.

Numeric values that Python holds as floats are modelled as rationals (ℚ);
Python ints are modelled as ℕ.  Python dicts keyed by variable names keep
insertion order, which the embedding preserves with association lists.
-/

namespace QTPR

/-- A vehicle record, as produced by `traffic_simulator.generate_vehicles`
and consumed by the other modules.  Fields mirror the Python dict keys
`vehicle_id`, `origin`, `destination`, `type`, `priority_weight`,
`candidate_routes` (`type` is renamed `vtype` because `type` is reserved). -/
structure Vehicle where
  vehicle_id : Nat
  origin : Nat := 0
  destination : Nat := 0
  vtype : String := "regular"
  priority_weight : ℚ := 1
  candidate_routes : List (List Nat) := []
deriving DecidableEq

/-- A QUBO decision variable.  The Python code names it `x_{vid}_{r_idx}`;
since that naming is injective in `(vid, r_idx)` we model the name by the
pair itself. -/
abbrev Var := Nat × Nat

/-- The QUBO coefficient dictionary `Q = defaultdict(float)`: absent keys
read as 0, so the dict is modelled as a total function. -/
abbrev QMap := (Var × Var) → ℚ

/-- `Q[(k)] += d` on a `defaultdict(float)`. -/
def qUpdate (Q : QMap) (k : Var × Var) (d : ℚ) : QMap :=
  fun k2 => if k2 = k then Q k2 + d else Q k2

/-- `qubo_builder.create_qubo_variables`: one variable per
`(vehicle_id, route_index)` pair, in vehicle order then route-index order
(the dict's insertion order). -/
def create_qubo_variables (vehicles : List Vehicle) : List Var :=
  vehicles.flatMap (fun v =>
    (List.range v.candidate_routes.length).map (fun r => (v.vehicle_id, r)))

/-- Constraint 1 of `qubo_builder.build_qubo`, inner body for one vehicle:
`Q[(var_i, var_i)] += -2` for each route index `i`, and
`Q[(var_i, var_j)] += 2` for every ordered pair `i ≠ j`. -/
def constraint1Vehicle (Q : QMap) (v : Vehicle) : QMap :=
  let vid := v.vehicle_id
  let m := v.candidate_routes.length
  (List.range m).foldl (fun Q i =>
    (List.range m).foldl (fun Q j =>
      if i ≠ j then qUpdate Q ((vid, i), (vid, j)) 2 else Q)
      (qUpdate Q ((vid, i), (vid, i)) (-2))) Q

/-- Constraint 1 of `qubo_builder.build_qubo` (lines 59-70): the
exactly-one-route penalty, looped over all vehicles. -/
def constraint1 (vehicles : List Vehicle) (Q : QMap) : QMap :=
  vehicles.foldl constraint1Vehicle Q

/-- `edges = [(route[i], route[i+1]) for i in range(len(route) - 1)]`. -/
def route_edges (route : List Nat) : List (Nat × Nat) :=
  route.zip route.tail

/-- One entry of an `edge_usage` bucket: `(vid, r_idx, priority)`. -/
abbrev Usage := Nat × Nat × ℚ

/-- `edge_usage[edge].append(u)` on a `defaultdict(list)` modelled as an
insertion-ordered association list. -/
def usageInsert (d : List ((Nat × Nat) × List Usage)) (e : Nat × Nat) (u : Usage) :
    List ((Nat × Nat) × List Usage) :=
  if d.any (fun kv => kv.1 = e) then
    d.map (fun kv => if kv.1 = e then (kv.1, kv.2 ++ [u]) else kv)
  else d ++ [(e, [u])]

/-- The `edge_usage` accumulation of `qubo_builder.build_qubo` (lines
75-84).  NOTE: the key is the *directed* tuple `(route[i], route[i+1])`
exactly as in the source — no canonicalization of edge direction. -/
def edge_usage (vehicles : List Vehicle) : List ((Nat × Nat) × List Usage) :=
  vehicles.foldl (fun d v =>
    v.candidate_routes.enum.foldl (fun d ir =>
      (route_edges ir.2).foldl
        (fun d e => usageInsert d e (v.vehicle_id, ir.1, v.priority_weight)) d) d) []

/-- One conflict-penalty update of `build_qubo` (lines 90-97):
`Q[(var1, var2)] += congestion_weight * (1/p1 + 1/p2)`. -/
def conflictUser (Q : QMap) (cw : ℚ) (u1 u2 : Usage) : QMap :=
  qUpdate Q ((u1.1, u1.2.1), (u2.1, u2.2.1)) (cw * (1 / u1.2.2 + 1 / u2.2.2))

/-- The `for i in range(len(users)): for j in range(i+1, len(users))`
double loop of `build_qubo` over one edge's user list. -/
def conflictPairs (cw : ℚ) : QMap → List Usage → QMap
  | Q, [] => Q
  | Q, u :: rest =>
    conflictPairs cw (rest.foldl (fun Q u2 => conflictUser Q cw u u2) Q) rest

/-- The ordered pairs `(users[i], users[j])` with `i < j` visited by the
double loop of `conflictPairs`, in visiting order: one entry per
unordered pair of distinct positions. -/
def uPairs : List Usage → List (Usage × Usage)
  | [] => []
  | u :: rest => rest.map (fun u2 => (u, u2)) ++ uPairs rest

/-- Constraint 2 of `build_qubo` (lines 86-97): for every edge used by
more than one `(vehicle, route)` pair, add a conflict penalty per
unordered pair of users. -/
def conflictPhase (vehicles : List Vehicle) (cw : ℚ) (Q : QMap) : QMap :=
  (edge_usage vehicles).foldl
    (fun Q kv => if kv.2.length > 1 then conflictPairs cw Q kv.2 else Q) Q

/-- `qubo_builder.build_qubo(vehicles, variable_map, congestion_weight)`.
The `variable_map` is always `create_qubo_variables(vehicles)`, whose
lookup `variable_map[(vid, i)]` is the injective naming modelled by the
identity on pairs, so it is not a separate argument here. -/
def build_qubo (vehicles : List Vehicle) (cw : ℚ) : QMap :=
  conflictPhase vehicles cw (constraint1 vehicles (fun _ => 0))

/-! ### priority_logic.py -/

/-- `priority_logic.compute_route_priority`: count the route edges that
occur in `congested_edges` in either direction, then score
`vehicle_priority / (1 + congestion_penalty)`. -/
def compute_route_priority (routeEdges congested_edges : List (Nat × Nat))
    (vehicle_priority : ℚ) : ℚ :=
  let congestion_penalty : Nat :=
    routeEdges.countP (fun e => congested_edges.contains e ||
      congested_edges.contains (e.2, e.1))
  vehicle_priority / (1 + (congestion_penalty : ℚ))

/-- One step of a stable insertion sort: insert `x` after every element
`y` already in the (sorted) accumulator unless `x` must come strictly
before `y` according to `le`.  Together with `sortStable` this models
Python's stable `list.sort`. -/
def insertSorted (le : α → α → Bool) (acc : List α) (x : α) : List α :=
  match acc with
  | [] => [x]
  | y :: ys => if le x y && ! le y x then x :: y :: ys else y :: insertSorted le ys x

/-- Python's stable `list.sort(key=..., reverse=...)`: any stable sort by
the same comparison produces the same output, so a left-to-right stable
insertion sort is a faithful model. -/
def sortStable (le : α → α → Bool) (l : List α) : List α :=
  l.foldl (insertSorted le) []

/-- The descending-score comparison used by
`ranked_routes.sort(key=lambda x: x[1], reverse=True)`. -/
def scoreDesc (a b : (List Nat) × ℚ) : Bool := b.2 ≤ a.2

/-- `priority_logic.rank_vehicle_routes`: score each candidate route,
then sort the `(route, score)` pairs by descending score (stably). -/
def rank_vehicle_routes (vehicle : Vehicle) (congested_edges : List (Nat × Nat)) :
    List ((List Nat) × ℚ) :=
  let ranked_routes := vehicle.candidate_routes.map (fun route =>
    (route, compute_route_priority (route_edges route) congested_edges
      vehicle.priority_weight))
  sortStable scoreDesc ranked_routes

/-- A Python `dict` with `Nat` keys, modelled as an insertion-ordered
association list with unique keys. -/
abbrev Dict (α : Type) := List (Nat × α)

/-- `d[k] = v` on a Python dict: overwrite in place if the key exists,
else append. -/
def dictInsert (d : Dict α) (k : Nat) (v : α) : Dict α :=
  if d.any (fun kv => kv.1 = k) then
    d.map (fun kv => if kv.1 = k then (k, v) else kv)
  else d ++ [(k, v)]

/-- The key list of a dict, in insertion order. -/
def dictKeys (d : Dict α) : List Nat := d.map Prod.fst

/-- `d.get(k)`. -/
def dictGet (d : Dict α) (k : Nat) : Option α :=
  (d.find? (fun kv => kv.1 = k)).map Prod.snd

/-- `priority_logic.select_preferred_routes`: for each vehicle take the
top-ranked route, or `None` when the ranking is empty. -/
def select_preferred_routes (vehicles : List Vehicle)
    (congested_edges : List (Nat × Nat)) : Dict (Option (List Nat)) :=
  vehicles.foldl (fun selected_routes vehicle =>
    match rank_vehicle_routes vehicle congested_edges with
    | [] => dictInsert selected_routes vehicle.vehicle_id none
    | r :: _ => dictInsert selected_routes vehicle.vehicle_id (some r.1)) []

/-! ### solver.py -/

/-- The recursion behind `solver.decode_solution`: walk `variable_map` in
insertion order; whenever `sample.get(var_name, 0) == 1`, perform
`selected_routes[vid] = vehicles[vid]["candidate_routes"][r_idx]`.
`none` models an uncaught `IndexError` from either subscript. -/
def decodeGo (sample : Var → Nat) (vehicles : List Vehicle) :
    List Var → Dict (List Nat) → Option (Dict (List Nat))
  | [], acc => some acc
  | p :: rest, acc =>
    if sample p = 1 then
      match vehicles[p.1]? with
      | none => none
      | some v =>
        match v.candidate_routes[p.2]? with
        | none => none
        | some route => decodeGo sample vehicles rest (dictInsert acc p.1 route)
    else decodeGo sample vehicles rest acc

/-- `solver.decode_solution(sample, variable_map, vehicles)`. -/
def decode_solution (sample : Var → Nat) (variable_map : List Var)
    (vehicles : List Vehicle) : Option (Dict (List Nat)) :=
  decodeGo sample vehicles variable_map []

/-- The route `vehicles[vid]["candidate_routes"][r_idx]` that a
successful decode step stores for the variable `p = (vid, r_idx)`
(with `[]` as an out-of-range placeholder never reached on well-formed
input). -/
def routeOf (vehicles : List Vehicle) (p : Var) : List Nat :=
  match vehicles[p.1]? with
  | some v => v.candidate_routes.getD p.2 []
  | none => []

/-! ### traffic_simulator.py -/

/-- `num_emergency = max(1, int(len(od_pairs) * emergency_ratio))` from
`traffic_simulator.generate_vehicles` (Python `int()` truncates; for the
non-negative products arising here that is the floor). -/
def num_emergency (n : Nat) ( emergency_ratio : ℚ) : Nat :=
  max 1 (Int.toNat ⌊(n : ℚ) * emergency_ratio⌋)

/-- `traffic_simulator.generate_vehicles(od_pairs, emergency_ratio)`.
`emergency_indices` stands for the set returned by
`random.sample(range(len(od_pairs)), num_emergency)`; `random.sample`
raises `ValueError` when asked for more elements than the population has,
modelled by the `none` branch. -/
def generate_vehicles (od_pairs : List (Nat × Nat)) ( emergency_ratio : ℚ)
    (emergency_indices : Finset Nat) : Option (List Vehicle) :=
  let n := od_pairs.length
  let k := num_emergency n emergency_ratio
  if k ≤ n then
    some (od_pairs.enum.map (fun iod =>
      { vehicle_id := iod.1,
        origin := iod.2.1,
        destination := iod.2.2,
        vtype := if iod.1 ∈ emergency_indices then "emergency" else "regular",
        priority_weight := if iod.1 ∈ emergency_indices then 100 else 1,
        candidate_routes := [] }))
  else none

/-! ### network_builder.py -/

/-- The per-edge computation of `network_builder.compute_travel_time`.
`length` is the edge's `length` attribute in meters (a float in Python),
`speed` its `speed` attribute in km/h (always an integer in this code
base), `congestion` its simulated congestion level. -/
def compute_travel_time (length : ℚ) (speed : ℕ) (congestion : ℕ) : ℚ :=
  let length_km := length / 1000
  let speed_kmph : ℚ := max (speed : ℚ) 1
  let base_time := (length_km / speed_kmph) * 60
  let congestion_factor : ℚ := 1 + (congestion : ℚ) / 20
  base_time * congestion_factor

/-- A road network as `find_candidate_routes` sees it: an undirected
`networkx.Graph` with a `travel_time` weight on each edge. -/
structure Network where
  nodes : List Nat
  edges : List (Nat × Nat)
  travel_time : Nat → Nat → ℚ

/-- Neighbours of `u` in the undirected graph. -/
def neighbors (G : Network) (u : Nat) : List Nat :=
  G.edges.filterMap (fun e =>
    if e.1 = u then some e.2 else if e.2 = u then some e.1 else none)

/-- Depth-first enumeration of the simple paths from `cur` to `target`
avoiding `visited`; this models the set of paths that
`networkx.shortest_simple_paths` can yield.  `fuel` bounds the recursion;
any value at least the longest possible simple path length is exact. -/
def simplePathsAux (G : Network) (target : Nat) :
    Nat → List Nat → Nat → List (List Nat)
  | 0, _, _ => []
  | fuel + 1, visited, cur =>
    if cur = target then [[cur]]
    else ((neighbors G cur).filter (fun n => ! visited.contains n)).flatMap
      (fun n => (simplePathsAux G target fuel (n :: visited) n).map
        (fun p => cur :: p))

/-- All simple paths from `origin` to `destination`.  A simple path
visits each node at most once, and every node on it is `origin` or an
edge endpoint, so `2 * |edges| + 2` fuel never truncates. -/
def simple_paths (G : Network) (origin destination : Nat) : List (List Nat) :=
  simplePathsAux G destination (2 * G.edges.length + 2) [origin] origin

/-- Total `travel_time` weight of a path (the sort key of
`networkx.shortest_simple_paths(..., weight="travel_time")`). -/
def path_travel_time (G : Network) (p : List Nat) : ℚ :=
  ((p.zip p.tail).map (fun e => G.travel_time e.1 e.2)).sum

/-- Ascending-weight comparison for candidate paths. -/
def pathLe (G : Network) (p q : List Nat) : Bool :=
  path_travel_time G p ≤ path_travel_time G q

/-- `network_builder.find_candidate_routes(G, origin, destination, k,
timeout_paths)`.  The generator `nx.shortest_simple_paths` yields the
simple paths cheapest-first and raises `NetworkXNoPath` when none exists
(on the undirected graph the unweighted retry then fails too, so the
handler appends `[origin, destination]`); `islice(paths, min(k,
timeout_paths))` with the `len(routes) >= k` break keeps the first
`min k timeout_paths` of them; the final guard restores the fallback
when that prefix is empty. -/
def find_candidate_routes (G : Network) (origin destination k timeout_paths : Nat) :
    List (List Nat) :=
  if origin = destination then [[origin]]
  else
    let ps := sortStable (pathLe G) (simple_paths G origin destination)
    if ps = [] then [[origin, destination]]
    else
      let routes := ps.take (min k timeout_paths)
      if routes = [] then [[origin, destination]] else routes

/-! ### Concrete inputs used by the witnesses and counterexamples -/

/-- One emergency vehicle (priority 100) and one regular vehicle
(priority 1) whose single candidate routes share exactly the edge
`(0, 1)`, traversed in the same direction. -/
def pairEmergencyRegular : List Vehicle :=
  [{ vehicle_id := 0, priority_weight := 100, candidate_routes := [[0, 1]] },
   { vehicle_id := 1, priority_weight := 1, candidate_routes := [[0, 1]] }]

/-- Two regular vehicles whose single candidate routes share exactly the
edge `(0, 1)`, traversed in the same direction. -/
def pairTwoRegular : List Vehicle :=
  [{ vehicle_id := 0, priority_weight := 1, candidate_routes := [[0, 1]] },
   { vehicle_id := 1, priority_weight := 1, candidate_routes := [[0, 1]] }]

/-- Two regular vehicles whose single candidate routes traverse the same
physical road segment `{0, 1}` in opposite directions: vehicle 0 as
`(0, 1)`, vehicle 1 as `(1, 0)`. -/
def pairOppositeDirections : List Vehicle :=
  [{ vehicle_id := 0, priority_weight := 1, candidate_routes := [[0, 1]] },
   { vehicle_id := 1, priority_weight := 1, candidate_routes := [[1, 0]] }]

/-- One vehicle with two candidate routes. -/
def oneVehicleTwoRoutes : Vehicle :=
  { vehicle_id := 0, candidate_routes := [[5], [6]] }

/-- One vehicle with no candidate routes (the DegenerateInput case). -/
def oneVehicleNoRoutes : Vehicle :=
  { vehicle_id := 0, candidate_routes := [] }

/-- A two-node graph with no edges: origin 0 and destination 1 are
disconnected. -/
def disconnectedGraph : Network :=
  { nodes := [0, 1], edges := [], travel_time := fun _ _ => 0 }

/-! ### Accumulation lemmas for the QUBO coefficient map -/

theorem qUpdate_apply (Q : QMap) (a : Var × Var) (d : ℚ) (key : Var × Var) :
    qUpdate Q a d key = Q key + if a = key then d else 0 := by
  by_cases h : key = a
  · subst h; simp [qUpdate]
  · simp [qUpdate, h, Ne.symm h]

theorem ite_qUpdate_apply (Q : QMap) (c : Prop) [Decidable c] (a : Var × Var)
    (d : ℚ) (key : Var × Var) :
    (if c then qUpdate Q a d else Q) key = Q key + if c ∧ a = key then d else 0 := by
  by_cases hc : c
  · simp only [hc, if_true, true_and, qUpdate_apply]
  · simp [hc]

/-- A `foldl` whose body adds a per-element quantity to each key adds the
sum of those quantities. -/
theorem foldl_delta {α : Type _} (F : QMap → α → QMap) (g : α → (Var × Var) → ℚ)
    (hF : ∀ Q x key, F Q x key = Q key + g x key) (l : List α) :
    ∀ (Q : QMap) (key : Var × Var),
      (l.foldl F Q) key = Q key + (l.map (fun x => g x key)).sum := by
  induction l with
  | nil => intro Q key; simp
  | cons x xs ih =>
    intro Q key
    simp only [List.foldl_cons, List.map_cons, List.sum_cons]
    rw [ih, hF, add_assoc]

theorem constraint1Vehicle_apply (Q : QMap) (v : Vehicle) (key : Var × Var) :
    constraint1Vehicle Q v key = Q key +
      ((List.range v.candidate_routes.length).map (fun i =>
        (if ((v.vehicle_id, i), (v.vehicle_id, i)) = key then (-2 : ℚ) else 0) +
        ((List.range v.candidate_routes.length).map (fun j =>
          if i ≠ j ∧ ((v.vehicle_id, i), (v.vehicle_id, j)) = key then (2 : ℚ)
          else 0)).sum)).sum := by
  have hin : ∀ (i : ℕ) (Q : QMap) (key : Var × Var),
      ((List.range v.candidate_routes.length).foldl (fun Q j =>
        if i ≠ j then qUpdate Q ((v.vehicle_id, i), (v.vehicle_id, j)) 2 else Q) Q) key
      = Q key + ((List.range v.candidate_routes.length).map (fun j =>
          if i ≠ j ∧ ((v.vehicle_id, i), (v.vehicle_id, j)) = key then (2 : ℚ)
          else 0)).sum := by
    intro i
    exact foldl_delta _ _ (fun Q j key =>
      ite_qUpdate_apply Q (i ≠ j) ((v.vehicle_id, i), (v.vehicle_id, j)) 2 key) _
  have hbody : ∀ (Q : QMap) (i : ℕ) (key : Var × Var),
      ((List.range v.candidate_routes.length).foldl (fun Q j =>
        if i ≠ j then qUpdate Q ((v.vehicle_id, i), (v.vehicle_id, j)) 2 else Q)
        (qUpdate Q ((v.vehicle_id, i), (v.vehicle_id, i)) (-2))) key
      = Q key +
        ((if ((v.vehicle_id, i), (v.vehicle_id, i)) = key then (-2 : ℚ) else 0) +
         ((List.range v.candidate_routes.length).map (fun j =>
           if i ≠ j ∧ ((v.vehicle_id, i), (v.vehicle_id, j)) = key then (2 : ℚ)
           else 0)).sum) := by
    intro Q i key
    rw [hin, qUpdate_apply, add_assoc]
  exact foldl_delta _ _ hbody _ Q key

theorem sum_map_range_ite (m a : ℕ) (c : ℚ) (h : a < m) :
    ((List.range m).map (fun i => if i = a then c else 0)).sum = c := by
  induction m with
  | zero => omega
  | succ m ih =>
    rw [List.range_succ, List.map_append, List.sum_append]
    rcases Nat.lt_succ_iff_lt_or_eq.mp h with h2 | h2
    · have hma : m ≠ a := Nat.ne_of_gt h2
      simp [ih h2, hma]
    · have hz : ((List.range m).map (fun i => if i = a then c else 0)).sum = 0 := by
        apply List.sum_eq_zero
        intro x hx
        rcases List.mem_map.mp hx with ⟨i, hi, rfl⟩
        have hi2 := List.mem_range.mp hi
        have him : i ≠ a := by omega
        simp [him]
      rw [hz, zero_add]
      simp [h2]

theorem constraint1Vehicle_diag (Q : QMap) (v : Vehicle) (a : ℕ)
    (ha : a < v.candidate_routes.length) :
    constraint1Vehicle Q v ((v.vehicle_id, a), (v.vehicle_id, a))
      = Q ((v.vehicle_id, a), (v.vehicle_id, a)) + (-2) := by
  rw [constraint1Vehicle_apply]
  congr 1
  have hcongr : ∀ i ∈ List.range v.candidate_routes.length,
      ((if ((v.vehicle_id, i), (v.vehicle_id, i))
            = ((v.vehicle_id, a), (v.vehicle_id, a)) then (-2 : ℚ) else 0) +
        ((List.range v.candidate_routes.length).map (fun j =>
          if i ≠ j ∧ ((v.vehicle_id, i), (v.vehicle_id, j))
              = ((v.vehicle_id, a), (v.vehicle_id, a)) then (2 : ℚ) else 0)).sum)
      = if i = a then (-2 : ℚ) else 0 := by
    intro i _
    have hz : ((List.range v.candidate_routes.length).map (fun j =>
        if i ≠ j ∧ ((v.vehicle_id, i), (v.vehicle_id, j))
            = ((v.vehicle_id, a), (v.vehicle_id, a)) then (2 : ℚ) else 0)).sum = 0 := by
      apply List.sum_eq_zero
      intro x hx
      rcases List.mem_map.mp hx with ⟨j, _, rfl⟩
      have hcond : ¬ (i ≠ j ∧ ((v.vehicle_id, i), (v.vehicle_id, j))
          = ((v.vehicle_id, a), (v.vehicle_id, a))) := by
        rintro ⟨hij, hpair⟩
        simp only [Prod.mk.injEq] at hpair
        omega
      rw [if_neg hcond]
    rw [hz, add_zero]
    by_cases hia : i = a
    · rw [if_pos (by rw [hia]), if_pos hia]
    · rw [if_neg (by simp only [Prod.mk.injEq]; omega), if_neg hia]
  rw [List.map_congr_left hcongr, sum_map_range_ite _ _ _ ha]

theorem constraint1Vehicle_offdiag (Q : QMap) (v : Vehicle) (a b : ℕ)
    (ha : a < v.candidate_routes.length) (hb : b < v.candidate_routes.length)
    (hab : a ≠ b) :
    constraint1Vehicle Q v ((v.vehicle_id, a), (v.vehicle_id, b))
      = Q ((v.vehicle_id, a), (v.vehicle_id, b)) + 2 := by
  rw [constraint1Vehicle_apply]
  congr 1
  have hcongr : ∀ i ∈ List.range v.candidate_routes.length,
      ((if ((v.vehicle_id, i), (v.vehicle_id, i))
            = ((v.vehicle_id, a), (v.vehicle_id, b)) then (-2 : ℚ) else 0) +
        ((List.range v.candidate_routes.length).map (fun j =>
          if i ≠ j ∧ ((v.vehicle_id, i), (v.vehicle_id, j))
              = ((v.vehicle_id, a), (v.vehicle_id, b)) then (2 : ℚ) else 0)).sum)
      = if i = a then (2 : ℚ) else 0 := by
    intro i _
    have hdiag : ¬ ((v.vehicle_id, i), (v.vehicle_id, i))
        = ((v.vehicle_id, a), (v.vehicle_id, b)) := by
      simp only [Prod.mk.injEq]
      omega
    rw [if_neg hdiag, zero_add]
    by_cases hia : i = a
    · have hjcongr : ∀ j ∈ List.range v.candidate_routes.length,
          (if i ≠ j ∧ ((v.vehicle_id, i), (v.vehicle_id, j))
              = ((v.vehicle_id, a), (v.vehicle_id, b)) then (2 : ℚ) else 0)
          = if j = b then (2 : ℚ) else 0 := by
        intro j _
        by_cases hjb : j = b
        · have hcond : i ≠ j ∧ ((v.vehicle_id, i), (v.vehicle_id, j))
              = ((v.vehicle_id, a), (v.vehicle_id, b)) :=
            ⟨by omega, by rw [hia, hjb]⟩
          rw [if_pos hcond, if_pos hjb]
        · have hcond : ¬ (i ≠ j ∧ ((v.vehicle_id, i), (v.vehicle_id, j))
              = ((v.vehicle_id, a), (v.vehicle_id, b))) := by
            rintro ⟨_, hpair⟩
            simp only [Prod.mk.injEq] at hpair
            omega
          rw [if_neg hcond, if_neg hjb]
      rw [List.map_congr_left hjcongr, sum_map_range_ite _ _ _ hb, if_pos hia]
    · have hz : ((List.range v.candidate_routes.length).map (fun j =>
          if i ≠ j ∧ ((v.vehicle_id, i), (v.vehicle_id, j))
              = ((v.vehicle_id, a), (v.vehicle_id, b)) then (2 : ℚ) else 0)).sum = 0 := by
        apply List.sum_eq_zero
        intro x hx
        rcases List.mem_map.mp hx with ⟨j, _, rfl⟩
        have hcond : ¬ (i ≠ j ∧ ((v.vehicle_id, i), (v.vehicle_id, j))
            = ((v.vehicle_id, a), (v.vehicle_id, b))) := by
          rintro ⟨_, hpair⟩
          simp only [Prod.mk.injEq] at hpair
          omega
        rw [if_neg hcond]
      rw [hz, if_neg hia]
  rw [List.map_congr_left hcongr, sum_map_range_ite _ _ _ ha]

/-- Keys whose first variable belongs to another vehicle are untouched by
the exactly-one-route loop of that vehicle. -/
theorem constraint1Vehicle_frame (Q : QMap) (v : Vehicle) (key : Var × Var)
    (h : key.1.1 ≠ v.vehicle_id) :
    constraint1Vehicle Q v key = Q key := by
  rw [constraint1Vehicle_apply]
  have hz : ((List.range v.candidate_routes.length).map (fun i =>
      (if ((v.vehicle_id, i), (v.vehicle_id, i)) = key then (-2 : ℚ) else 0) +
      ((List.range v.candidate_routes.length).map (fun j =>
        if i ≠ j ∧ ((v.vehicle_id, i), (v.vehicle_id, j)) = key then (2 : ℚ)
        else 0)).sum)).sum = 0 := by
    apply List.sum_eq_zero
    intro x hx
    rcases List.mem_map.mp hx with ⟨i, _, rfl⟩
    have h1 : ¬ ((v.vehicle_id, i), (v.vehicle_id, i)) = key := by
      intro hk
      apply h
      rw [← hk]
    have h2 : ((List.range v.candidate_routes.length).map (fun j =>
        if i ≠ j ∧ ((v.vehicle_id, i), (v.vehicle_id, j)) = key then (2 : ℚ)
        else 0)).sum = 0 := by
      apply List.sum_eq_zero
      intro y hy
      rcases List.mem_map.mp hy with ⟨j, _, rfl⟩
      have : ¬ (i ≠ j ∧ ((v.vehicle_id, i), (v.vehicle_id, j)) = key) := by
        rintro ⟨_, hk⟩
        apply h
        rw [← hk]
      simp [this]
    simp [h1, h2]
  rw [hz, add_zero]

theorem constraint1_frame (l : List Vehicle) (Q : QMap) (key : Var × Var)
    (h : ∀ v ∈ l, v.vehicle_id ≠ key.1.1) :
    constraint1 l Q key = Q key := by
  induction l generalizing Q with
  | nil => rfl
  | cons w ws ih =>
    have hw : key.1.1 ≠ w.vehicle_id := (h w (List.mem_cons_self w ws)).symm
    show constraint1 ws (constraint1Vehicle Q w) key = Q key
    rw [ih _ (fun v hv => h v (List.mem_cons_of_mem w hv)),
      constraint1Vehicle_frame Q w key hw]

/-- C3: for every vehicle `v` with `m` candidate routes in a list of
vehicles with pairwise-distinct ids, the exactly-one-route loop of
`build_qubo` (the `constraint1` phase, lines 59-70 of qubo_builder.py)
adds exactly `-2` to the diagonal coefficient of each of `v`'s variables
and exactly `+2` to the off-diagonal coefficient of every ordered pair
`a ≠ b` of `v`'s route indices, whatever the coefficients held before. -/
theorem c3_exactly_one_route_penalty
    (vehicles : List Vehicle) (v : Vehicle) (hv : v ∈ vehicles)
    (hnodup : (vehicles.map Vehicle.vehicle_id).Nodup)
    (a b : ℕ) (ha : a < v.candidate_routes.length)
    (hb : b < v.candidate_routes.length) (hab : a ≠ b) (Q : QMap) :
    constraint1 vehicles Q ((v.vehicle_id, a), (v.vehicle_id, a))
      = Q ((v.vehicle_id, a), (v.vehicle_id, a)) + (-2)
    ∧ constraint1 vehicles Q ((v.vehicle_id, a), (v.vehicle_id, b))
      = Q ((v.vehicle_id, a), (v.vehicle_id, b)) + 2 := by
  revert hv hnodup Q
  induction vehicles with
  | nil => intro hv _ _; cases hv
  | cons w ws ih =>
    intro hv hnodup Q
    rw [List.map_cons, List.nodup_cons] at hnodup
    obtain ⟨hwid, hns⟩ := hnodup
    rcases List.mem_cons.mp hv with rfl | hvws
    · have hframe : ∀ u ∈ ws, u.vehicle_id ≠ v.vehicle_id := by
        intro u hu heq
        exact hwid (heq ▸ List.mem_map_of_mem Vehicle.vehicle_id hu)
      constructor
      · show constraint1 ws (constraint1Vehicle Q v) _ = _
        rw [constraint1_frame ws _ _ hframe, constraint1Vehicle_diag Q v a ha]
      · show constraint1 ws (constraint1Vehicle Q v) _ = _
        rw [constraint1_frame ws _ _ hframe,
          constraint1Vehicle_offdiag Q v a b ha hb hab]
    · have hwv : v.vehicle_id ≠ w.vehicle_id := by
        intro heq
        exact hwid (heq ▸ List.mem_map_of_mem Vehicle.vehicle_id hvws)
      obtain ⟨ih1, ih2⟩ := ih hvws hns (constraint1Vehicle Q w)
      constructor
      · show constraint1 ws (constraint1Vehicle Q w) _ = _
        rw [ih1, constraint1Vehicle_frame Q w _ hwv]
      · show constraint1 ws (constraint1Vehicle Q w) _ = _
        rw [ih2, constraint1Vehicle_frame Q w _ hwv]

/-- Witness for C3 at a concrete input: one vehicle with two candidate
routes, starting from the all-zero coefficient map. -/
theorem c3_exactly_one_route_penalty_witness :
    oneVehicleTwoRoutes ∈ [oneVehicleTwoRoutes]
    ∧ ([oneVehicleTwoRoutes].map Vehicle.vehicle_id).Nodup
    ∧ 0 < oneVehicleTwoRoutes.candidate_routes.length
    ∧ 1 < oneVehicleTwoRoutes.candidate_routes.length
    ∧ (0 : ℕ) ≠ 1
    ∧ (constraint1 [oneVehicleTwoRoutes] (fun _ => 0)
        ((oneVehicleTwoRoutes.vehicle_id, 0), (oneVehicleTwoRoutes.vehicle_id, 0))
        = (fun _ : Var × Var => (0 : ℚ))
            ((oneVehicleTwoRoutes.vehicle_id, 0), (oneVehicleTwoRoutes.vehicle_id, 0)) + (-2)
      ∧ constraint1 [oneVehicleTwoRoutes] (fun _ => 0)
        ((oneVehicleTwoRoutes.vehicle_id, 0), (oneVehicleTwoRoutes.vehicle_id, 1))
        = (fun _ : Var × Var => (0 : ℚ))
            ((oneVehicleTwoRoutes.vehicle_id, 0), (oneVehicleTwoRoutes.vehicle_id, 1)) + 2) :=
  ⟨List.mem_cons_self _ _, by decide, by decide, by decide, by decide,
    c3_exactly_one_route_penalty [oneVehicleTwoRoutes] oneVehicleTwoRoutes
      (List.mem_cons_self _ _) (by decide) 0 1 (by decide) (by decide) (by decide)
      (fun _ => 0)⟩

/-- The conflict double loop over one edge's user list adds, to every
key, `cw * (1/p1 + 1/p2)` for each visited pair whose variable pair is
that key. -/
theorem conflictPairs_apply (cw : ℚ) (us : List Usage) :
    ∀ (Q : QMap) (key : Var × Var),
      conflictPairs cw Q us key = Q key +
        ((uPairs us).map (fun q =>
          if ((q.1.1, q.1.2.1), (q.2.1, q.2.2.1)) = key
          then cw * (1 / q.1.2.2 + 1 / q.2.2.2) else 0)).sum := by
  induction us with
  | nil => intro Q key; simp [conflictPairs, uPairs]
  | cons u rest ih =>
    intro Q key
    show conflictPairs cw (rest.foldl (fun Q u2 => conflictUser Q cw u u2) Q) rest key = _
    rw [ih]
    have hfold : (rest.foldl (fun Q u2 => conflictUser Q cw u u2) Q) key
        = Q key + (rest.map (fun u2 =>
            if ((u.1, u.2.1), (u2.1, u2.2.1)) = key
            then cw * (1 / u.2.2 + 1 / u2.2.2) else 0)).sum := by
      exact foldl_delta (fun Q u2 => conflictUser Q cw u u2)
        (fun u2 key => if ((u.1, u.2.1), (u2.1, u2.2.1)) = key
          then cw * (1 / u.2.2 + 1 / u2.2.2) else 0)
        (fun Q u2 key => qUpdate_apply Q ((u.1, u.2.1), (u2.1, u2.2.1))
          (cw * (1 / u.2.2 + 1 / u2.2.2)) key) rest Q key
    rw [hfold,
      show uPairs (u :: rest) = rest.map (fun u2 => (u, u2)) ++ uPairs rest from rfl,
      List.map_append, List.sum_append]
    have hcomp : ((rest.map (fun u2 => (u, u2))).map (fun q =>
        if ((q.1.1, q.1.2.1), (q.2.1, q.2.2.1)) = key
        then cw * (1 / q.1.2.2 + 1 / q.2.2.2) else 0))
      = rest.map (fun u2 => if ((u.1, u.2.1), (u2.1, u2.2.1)) = key
          then cw * (1 / u.2.2 + 1 / u2.2.2) else 0) := by
      rw [List.map_map]
      exact List.map_congr_left (fun u2 _ => rfl)
    rw [hcomp, add_assoc]

/-- C4: the conflict loop adds `congestion_weight * (1/p1 + 1/p2)` per
unordered pair of users of a shared edge; concretely, an emergency
(priority 100) and a regular (priority 1) vehicle sharing exactly one
edge get coefficient `1 * (1/100 + 1/1) = 1.01` on their variable pair,
strictly smaller than the `1 * (1 + 1) = 2` of two regular vehicles. -/
theorem c4_conflict_penalty_coefficients :
    (∀ (cw : ℚ) (us : List Usage) (Q : QMap) (key : Var × Var),
      conflictPairs cw Q us key = Q key +
        ((uPairs us).map (fun q =>
          if ((q.1.1, q.1.2.1), (q.2.1, q.2.2.1)) = key
          then cw * (1 / q.1.2.2 + 1 / q.2.2.2) else 0)).sum)
    ∧ build_qubo pairEmergencyRegular 1 ((0, 0), (1, 0)) = 101 / 100
    ∧ build_qubo pairTwoRegular 1 ((0, 0), (1, 0)) = 2
    ∧ (101 : ℚ) / 100 < 2 :=
  ⟨fun cw us Q key => conflictPairs_apply cw us Q key,
   by with_unfolding_all rfl, by with_unfolding_all rfl, by norm_num⟩

/-- C1 (evidence of the divergence): two routes that traverse the same
physical segment `{0, 1}` in opposite directions produce *no* conflict
term in `build_qubo` — the coefficient of their variable pair stays 0 in
both orders — while the same-direction traversal of the segment produces
the expected positive coefficient 2.  `edge_usage` keys on the directed
tuple, so `(0, 1)` and `(1, 0)` land in different buckets of size 1. -/
theorem c1_directed_edge_matching_misses_opposite_traversal :
    build_qubo pairOppositeDirections 1 ((0, 0), (1, 0)) = 0
    ∧ build_qubo pairOppositeDirections 1 ((1, 0), (0, 0)) = 0
    ∧ build_qubo pairTwoRegular 1 ((0, 0), (1, 0)) = 2 :=
  ⟨by with_unfolding_all rfl, by with_unfolding_all rfl, by with_unfolding_all rfl⟩

/-- C9: for every edge with positive length, positive (integer) speed and
congestion level 1..10, `compute_travel_time` realises the formula
`(length/1000/speed)*60*(1 + congestion/20)`, the value is strictly
positive, and it is strictly increasing in both `length` and
`congestion` with the other attributes held fixed. -/
theorem c9_travel_time_formula_positive_monotone
    (length : ℚ) (speed congestion : ℕ)
    (hl : 0 < length) (hs : 0 < speed)
    (hc1 : 1 ≤ congestion) (hc10 : congestion ≤ 10) :
    compute_travel_time length speed congestion
      = (length / 1000 / (speed : ℚ)) * 60 * (1 + (congestion : ℚ) / 20)
    ∧ 0 < compute_travel_time length speed congestion
    ∧ (∀ length2 : ℚ, length < length2 →
        compute_travel_time length speed congestion
          < compute_travel_time length2 speed congestion)
    ∧ (∀ congestion2 : ℕ, congestion < congestion2 →
        compute_travel_time length speed congestion
          < compute_travel_time length speed congestion2) := by
  have hs2 : (0 : ℚ) < (speed : ℚ) := by exact_mod_cast hs
  have hmax : max (speed : ℚ) 1 = (speed : ℚ) :=
    max_eq_left (by exact_mod_cast hs)
  have heq : ∀ (x : ℚ) (c : ℕ), compute_travel_time x speed c
      = (x / 1000 / (speed : ℚ)) * 60 * (1 + (c : ℚ) / 20) := by
    intro x c
    simp only [compute_travel_time]
    rw [hmax]
  have hfac : 0 < (1 : ℚ) / 1000 / (speed : ℚ) * 60 * (1 + (congestion : ℚ) / 20) := by
    have : (0 : ℚ) ≤ (congestion : ℚ) := Nat.cast_nonneg congestion
    positivity
  have hlin : ∀ (x : ℚ) (c : ℕ), (x / 1000 / (speed : ℚ)) * 60 * (1 + (c : ℚ) / 20)
      = x * ((1 : ℚ) / 1000 / (speed : ℚ) * 60 * (1 + (c : ℚ) / 20)) := by
    intro x c; ring
  refine ⟨heq length congestion, ?_, ?_, ?_⟩
  · rw [heq length congestion, hlin length congestion]
    exact mul_pos hl hfac
  · intro length2 hlt
    rw [heq length congestion, heq length2 congestion,
      hlin length congestion, hlin length2 congestion]
    exact mul_lt_mul_of_pos_right hlt hfac
  · intro congestion2 hlt
    rw [heq length congestion, heq length congestion2]
    have hbase : 0 < (length / 1000 / (speed : ℚ)) * 60 := by positivity
    have hcast : (congestion : ℚ) < (congestion2 : ℚ) := by exact_mod_cast hlt
    have hfactor : 1 + (congestion : ℚ) / 20 < 1 + (congestion2 : ℚ) / 20 := by
      have : (congestion : ℚ) / 20 < (congestion2 : ℚ) / 20 :=
        (div_lt_div_iff_of_pos_right (by norm_num)).mpr hcast
      linarith
    exact mul_lt_mul_of_pos_left hfactor hbase

/-- Witness for C9 at a concrete edge: length 100 m, speed 30 km/h,
congestion level 5, with the monotonicity conclusions instantiated at
length 200 and congestion 7. -/
theorem c9_travel_time_witness :
    0 < (100 : ℚ) ∧ 0 < 30 ∧ 1 ≤ 5 ∧ 5 ≤ 10
    ∧ compute_travel_time 100 30 5
        = ((100 : ℚ) / 1000 / (30 : ℚ)) * 60 * (1 + (5 : ℚ) / 20)
    ∧ 0 < compute_travel_time 100 30 5
    ∧ compute_travel_time 100 30 5 < compute_travel_time 200 30 5
    ∧ compute_travel_time 100 30 5 < compute_travel_time 100 30 7 := by
  obtain ⟨h1, h2, h3, h4⟩ := c9_travel_time_formula_positive_monotone
    100 30 5 (by norm_num) (by decide) (by decide) (by decide)
  exact ⟨by norm_num, by decide, by decide, by decide,
    h1, h2, h3 200 (by norm_num), h4 7 (by decide)⟩

/-- C10: on the empty OD-pair list, `generate_vehicles` asks
`random.sample` for `max(1, 0) = 1` indices from an empty population,
which raises `ValueError` (modelled by `none`), for every emergency
ratio and every candidate emergency-index set. -/
theorem c10_generate_vehicles_empty_od_raises
    ( ratio : ℚ) (emIdx : Finset Nat) :
    generate_vehicles [] ratio emIdx = none := by
  simp [generate_vehicles, num_emergency]

/-- Counting the elements of `range n` that belong to a subset of
`Finset.range n` recovers the subset's cardinality. -/
theorem countP_range_finset_mem (n : ℕ) (s : Finset ℕ)
    (hsub : s ⊆ Finset.range n) :
    (List.range n).countP (fun i => decide (i ∈ s)) = s.card := by
  induction n generalizing s with
  | zero =>
    have hs : s = ∅ := Finset.subset_empty.mp (by simpa using hsub)
    simp [hs]
  | succ n ih =>
    rw [List.range_succ, List.countP_append]
    by_cases hm : n ∈ s
    · have hsub2 : s.erase n ⊆ Finset.range n := by
        intro x hx
        have hx1 := Finset.mem_of_mem_erase hx
        have hxn := Finset.ne_of_mem_erase hx
        have hlt := Finset.mem_range.mp (hsub hx1)
        exact Finset.mem_range.mpr (by omega)
      have hcount : (List.range n).countP (fun i => decide (i ∈ s))
          = (List.range n).countP (fun i => decide (i ∈ s.erase n)) := by
        apply List.countP_congr
        intro x hx
        have hxn : x ≠ n := Nat.ne_of_lt (List.mem_range.mp hx)
        simp [Finset.mem_erase, hxn]
      have hone : List.countP (fun i => decide (i ∈ s)) [n] = 1 := by
        simp [hm]
      rw [hcount, ih _ hsub2, hone, Finset.card_erase_add_one hm]
    · have hsub2 : s ⊆ Finset.range n := by
        intro x hx
        have hlt := Finset.mem_range.mp (hsub hx)
        have hxn : x ≠ n := fun h => hm (h ▸ hx)
        exact Finset.mem_range.mpr (by omega)
      rw [ih _ hsub2]
      simp [hm]

/-- C8: on a non-empty OD-pair list with `emergencyRatio ∈ (0,1)`, for
every emergency index set of the size and range `random.sample` returns,
`generate_vehicles` yields exactly one vehicle per OD pair, with
`vehicle_id` equal to its position, exactly
`max 1 ⌊n * emergencyRatio⌋` emergency vehicles of priority 100, and all
other vehicles regular with priority 1. -/
theorem c8_generate_vehicles_partition
    (od_pairs : List (Nat × Nat)) ( emergency_ratio : ℚ)
    (emergency_indices : Finset Nat)
    (hne : od_pairs ≠ []) (h0 : 0 < emergency_ratio)
    (h1 : emergency_ratio < 1)
    (hcard : emergency_indices.card
      = num_emergency od_pairs.length emergency_ratio)
    (hsub : emergency_indices ⊆ Finset.range od_pairs.length) :
    ∃ vs, generate_vehicles od_pairs emergency_ratio emergency_indices = some vs
      ∧ vs.length = od_pairs.length
      ∧ vs.map Vehicle.vehicle_id = List.range od_pairs.length
      ∧ (vs.filter (fun v => v.vtype = "emergency")).length
          = num_emergency od_pairs.length emergency_ratio
      ∧ (∀ v ∈ vs, (v.vtype = "emergency" ∧ v.priority_weight = 100)
          ∨ (v.vtype = "regular" ∧ v.priority_weight = 1)) := by
  have hn1 : 1 ≤ od_pairs.length := List.length_pos.mpr hne
  have hnq : (0 : ℚ) < (od_pairs.length : ℚ) := by exact_mod_cast hn1
  have hmul : (od_pairs.length : ℚ) * emergency_ratio < (od_pairs.length : ℚ) := by
    calc (od_pairs.length : ℚ) * emergency_ratio
        < (od_pairs.length : ℚ) * 1 := mul_lt_mul_of_pos_left h1 hnq
      _ = (od_pairs.length : ℚ) := mul_one _
  have hfl : ⌊(od_pairs.length : ℚ) * emergency_ratio⌋ ≤ (od_pairs.length : ℤ) := by
    calc ⌊(od_pairs.length : ℚ) * emergency_ratio⌋
        ≤ ⌊(od_pairs.length : ℚ)⌋ := Int.floor_le_floor (le_of_lt hmul)
      _ = (od_pairs.length : ℤ) := Int.floor_natCast _
  have htn : Int.toNat ⌊(od_pairs.length : ℚ) * emergency_ratio⌋ ≤ od_pairs.length :=
    Int.toNat_le.mpr hfl
  have hk : num_emergency od_pairs.length emergency_ratio ≤ od_pairs.length :=
    max_le hn1 htn
  refine ⟨od_pairs.enum.map (fun iod =>
    { vehicle_id := iod.1, origin := iod.2.1, destination := iod.2.2,
      vtype := if iod.1 ∈ emergency_indices then "emergency" else "regular",
      priority_weight := if iod.1 ∈ emergency_indices then 100 else 1,
      candidate_routes := [] }), ?_, ?_, ?_, ?_, ?_⟩
  · simp only [generate_vehicles]
    rw [if_pos hk]
  · simp [List.enum_length]
  · rw [List.map_map]
    calc od_pairs.enum.map _
        = od_pairs.enum.map Prod.fst := List.map_congr_left (fun iod _ => rfl)
      _ = List.range od_pairs.length := List.enum_map_fst od_pairs
  · rw [← List.countP_eq_length_filter, List.countP_map]
    have hpt : List.countP ((fun v : Vehicle => decide (v.vtype = "emergency")) ∘
        (fun iod : Nat × (Nat × Nat) =>
          ({ vehicle_id := iod.1, origin := iod.2.1, destination := iod.2.2,
             vtype := if iod.1 ∈ emergency_indices then "emergency" else "regular",
             priority_weight := if iod.1 ∈ emergency_indices then 100 else 1,
             candidate_routes := [] } : Vehicle))) od_pairs.enum
        = List.countP ((fun i => decide (i ∈ emergency_indices)) ∘ Prod.fst)
            od_pairs.enum := by
      apply List.countP_congr
      intro iod _
      by_cases hm : iod.1 ∈ emergency_indices
      · simp [Function.comp, hm]
      · simp [Function.comp, hm]
    rw [hpt, ← List.countP_map, List.enum_map_fst,
      countP_range_finset_mem _ _ hsub, hcard]
  · intro v hv
    rcases List.mem_map.mp hv with ⟨iod, _, rfl⟩
    by_cases hm : iod.1 ∈ emergency_indices
    · left
      constructor
      · simp [hm]
      · simp [hm]
    · right
      constructor
      · simp [hm]
      · simp [hm]

/-- Witness for C8: two OD pairs, ratio 1/2, emergency index set `{0}`. -/
theorem c8_generate_vehicles_witness :
    ([(0, 1), (2, 3)] : List (Nat × Nat)) ≠ []
    ∧ (0 : ℚ) < 1 / 2 ∧ (1 : ℚ) / 2 < 1
    ∧ ({0} : Finset Nat).card = num_emergency 2 (1 / 2)
    ∧ ({0} : Finset Nat) ⊆ Finset.range 2
    ∧ (∃ vs, generate_vehicles [(0, 1), (2, 3)] (1 / 2) {0} = some vs
      ∧ vs.length = 2
      ∧ vs.map Vehicle.vehicle_id = List.range 2
      ∧ (vs.filter (fun v => v.vtype = "emergency")).length = num_emergency 2 (1 / 2)
      ∧ (∀ v ∈ vs, (v.vtype = "emergency" ∧ v.priority_weight = 100)
          ∨ (v.vtype = "regular" ∧ v.priority_weight = 1))) :=
  ⟨by decide, by norm_num, by norm_num, by with_unfolding_all decide, by decide,
    c8_generate_vehicles_partition [(0, 1), (2, 3)] (1 / 2) {0}
      (by decide) (by norm_num) (by norm_num)
      (by with_unfolding_all decide) (by decide)⟩

/-! ### Stable sort lemmas -/

theorem insertSorted_perm (le : α → α → Bool) (acc : List α) (x : α) :
    List.Perm (insertSorted le acc x) (x :: acc) := by
  induction acc with
  | nil => exact List.Perm.refl _
  | cons y ys ih =>
    by_cases h : (le x y && ! le y x) = true
    · simp only [insertSorted, h, if_true]
      exact List.Perm.refl _
    · simp only [insertSorted, h, if_false]
      exact (ih.cons y).trans (List.Perm.swap x y ys)

theorem sortStable_foldl_perm (le : α → α → Bool) (l : List α) :
    ∀ acc, List.Perm (l.foldl (insertSorted le) acc) (acc ++ l) := by
  induction l with
  | nil => intro acc; simp
  | cons x xs ih =>
    intro acc
    simp only [List.foldl_cons]
    have h1 : List.Perm (xs.foldl (insertSorted le) (insertSorted le acc x))
        (insertSorted le acc x ++ xs) := ih _
    have h2 : List.Perm (insertSorted le acc x ++ xs) ((x :: acc) ++ xs) :=
      (insertSorted_perm le acc x).append_right xs
    have h3 : List.Perm ((x :: acc) ++ xs) (acc ++ x :: xs) := by
      simp only [List.cons_append]
      exact List.perm_middle.symm
    exact (h1.trans h2).trans h3

theorem sortStable_perm (le : α → α → Bool) (l : List α) :
    List.Perm (sortStable le l) l := by
  simpa using sortStable_foldl_perm le l []

theorem mem_sortStable (le : α → α → Bool) (l : List α) (a : α) :
    a ∈ sortStable le l ↔ a ∈ l :=
  (sortStable_perm le l).mem_iff

/-! ### Candidate-route lemmas -/

/-- Every path produced by the simple-path enumeration starts at the
current node; in particular it is non-empty. -/
theorem simplePathsAux_head (G : Network) (target fuel : Nat) (visited : List Nat)
    (cur : Nat) (p : List Nat) (hp : p ∈ simplePathsAux G target fuel visited cur) :
    ∃ q, p = cur :: q := by
  cases fuel with
  | zero => cases hp
  | succ fuel =>
    simp only [simplePathsAux] at hp
    by_cases h : cur = target
    · rw [if_pos h] at hp
      rcases List.mem_singleton.mp hp with rfl
      exact ⟨[], rfl⟩
    · rw [if_neg h] at hp
      rcases List.mem_flatMap.mp hp with ⟨n, _, hn⟩
      rcases List.mem_map.mp hn with ⟨q, _, rfl⟩
      exact ⟨q, rfl⟩

theorem simple_paths_head (G : Network) (origin destination : Nat) (p : List Nat)
    (hp : p ∈ simple_paths G origin destination) : ∃ q, p = origin :: q :=
  simplePathsAux_head G destination _ _ origin p hp

/-- C6: `find_candidate_routes` always returns a non-empty list of
non-empty routes (it is a total function, modelling that every exception
in the source is caught), and on a disconnected origin/destination pair
— one admitting no simple path at all — it returns exactly the two-node
fallback `[[origin, destination]]`. -/
theorem c6_find_candidate_routes_total (G : Network) (origin destination k t : Nat) :
    (find_candidate_routes G origin destination k t ≠ []
      ∧ ∀ r ∈ find_candidate_routes G origin destination k t, r ≠ [])
    ∧ (origin ≠ destination → simple_paths G origin destination = [] →
        find_candidate_routes G origin destination k t = [[origin, destination]]) := by
  constructor
  · constructor
    · simp only [find_candidate_routes]
      split_ifs with h1 h2 h3
      · simp
      · simp
      · simp
      · exact h3
    · intro r hr
      simp only [find_candidate_routes] at hr
      split_ifs at hr with h1 h2 h3
      · rcases List.mem_singleton.mp hr with rfl; simp
      · rcases List.mem_singleton.mp hr with rfl; simp
      · rcases List.mem_singleton.mp hr with rfl; simp
      · have hmem : r ∈ sortStable (pathLe G) (simple_paths G origin destination) :=
          List.take_subset _ _ hr
        have hmem2 : r ∈ simple_paths G origin destination :=
          (mem_sortStable _ _ r).mp hmem
        rcases simple_paths_head G origin destination r hmem2 with ⟨q, rfl⟩
        simp
  · intro hod hnone
    simp only [find_candidate_routes, if_neg hod]
    rw [hnone]
    simp [sortStable]

/-- Witness for C6 at a concrete disconnected pair: the two-node
edgeless graph with origin 0 and destination 1. -/
theorem c6_find_candidate_routes_witness :
    (0 : Nat) ≠ 1 ∧ simple_paths disconnectedGraph 0 1 = []
    ∧ find_candidate_routes disconnectedGraph 0 1 2 100 = [[0, 1]] :=
  ⟨by decide, by with_unfolding_all rfl,
    (c6_find_candidate_routes_total disconnectedGraph 0 1 2 100).2
      (by decide) (by with_unfolding_all rfl)⟩

/-! ### Descending-score sort: order and stability -/

theorem insertSorted_sorted_desc (x : (List Nat) × ℚ)
    (acc : List ((List Nat) × ℚ))
    (hacc : List.Pairwise (fun a b => b.2 ≤ a.2) acc) :
    List.Pairwise (fun a b => b.2 ≤ a.2) (insertSorted scoreDesc acc x) := by
  induction acc with
  | nil => simp [insertSorted]
  | cons y ys ih =>
    rw [List.pairwise_cons] at hacc
    obtain ⟨hy, hys⟩ := hacc
    by_cases h : (scoreDesc x y && ! scoreDesc y x) = true
    · simp only [insertSorted, h, if_true]
      rw [Bool.and_eq_true] at h
      have hyx : y.2 ≤ x.2 := of_decide_eq_true h.1
      refine List.Pairwise.cons ?_ (List.Pairwise.cons hy hys)
      intro b hb
      rcases List.mem_cons.mp hb with rfl | hb2
      · exact hyx
      · exact le_trans (hy b hb2) hyx
    · simp only [insertSorted, h, if_false]
      have hxy : x.2 ≤ y.2 := by
        by_cases hx : x.2 ≤ y.2
        · exact hx
        · exfalso
          apply h
          rw [Bool.and_eq_true]
          constructor
          · exact decide_eq_true (le_of_not_le hx)
          · simp only [Bool.not_eq_true']
            exact decide_eq_false hx
      refine List.Pairwise.cons ?_ (ih hys)
      intro b hb
      have hb3 := (insertSorted_perm scoreDesc ys x).mem_iff.mp hb
      rcases List.mem_cons.mp hb3 with rfl | hb2
      · exact hxy
      · exact hy b hb2

theorem sortStable_foldl_sorted_desc (l : List ((List Nat) × ℚ)) :
    ∀ acc, List.Pairwise (fun a b => b.2 ≤ a.2) acc →
      List.Pairwise (fun a b => b.2 ≤ a.2) (l.foldl (insertSorted scoreDesc) acc) := by
  induction l with
  | nil => intro acc hacc; exact hacc
  | cons x xs ih =>
    intro acc hacc
    exact ih _ (insertSorted_sorted_desc x acc hacc)

/-- Elements whose score is strictly below a sorted prefix head never
pass the score-`s` filter. -/
theorem filter_score_eq_nil (s : ℚ) (y : (List Nat) × ℚ)
    (ys : List ((List Nat) × ℚ))
    (hy : ∀ b ∈ ys, b.2 ≤ y.2) (hlt : y.2 < s) :
    (y :: ys).filter (fun a => a.2 = s) = [] := by
  rw [List.filter_eq_nil_iff]
  intro b hb
  rcases List.mem_cons.mp hb with rfl | hb2
  · simp only [decide_eq_true_eq]
    exact ne_of_lt hlt
  · simp only [decide_eq_true_eq]
    exact ne_of_lt (lt_of_le_of_lt (hy b hb2) hlt)

theorem insertSorted_filter_desc (s : ℚ) (x : (List Nat) × ℚ)
    (acc : List ((List Nat) × ℚ))
    (hacc : List.Pairwise (fun a b => b.2 ≤ a.2) acc) :
    (insertSorted scoreDesc acc x).filter (fun a => a.2 = s)
      = if x.2 = s then acc.filter (fun a => a.2 = s) ++ [x]
        else acc.filter (fun a => a.2 = s) := by
  induction acc with
  | nil =>
    by_cases hx : x.2 = s
    · simp [insertSorted, hx]
    · simp [insertSorted, hx]
  | cons y ys ih =>
    rw [List.pairwise_cons] at hacc
    obtain ⟨hy, hys⟩ := hacc
    by_cases h : (scoreDesc x y && ! scoreDesc y x) = true
    · have hins : insertSorted scoreDesc (y :: ys) x = x :: y :: ys := by
        simp [insertSorted, h]
      rw [hins]
      rw [Bool.and_eq_true] at h
      have hyx : y.2 ≤ x.2 := of_decide_eq_true h.1
      have hxy : ¬ x.2 ≤ y.2 := by
        have h2 := h.2
        rw [Bool.not_eq_true'] at h2
        exact of_decide_eq_false h2
      have hlt : y.2 < x.2 := lt_of_le_of_ne hyx (fun he => hxy (le_of_eq he.symm))
      by_cases hx : x.2 = s
      · have hnil : (y :: ys).filter (fun a => a.2 = s) = [] :=
          filter_score_eq_nil s y ys hy (hx ▸ hlt)
        rw [if_pos hx, hnil, List.filter_cons_of_pos (by simp [hx]), hnil]
        rfl
      · rw [if_neg hx, List.filter_cons_of_neg (by simp [hx])]
    · have hins : insertSorted scoreDesc (y :: ys) x
          = y :: insertSorted scoreDesc ys x := by
        simp [insertSorted, h]
      rw [hins]
      by_cases hyv : y.2 = s
      · rw [List.filter_cons_of_pos (by simp [hyv]),
          List.filter_cons_of_pos (by simp [hyv]), ih hys]
        by_cases hx : x.2 = s
        · rw [if_pos hx, if_pos hx, List.cons_append]
        · rw [if_neg hx, if_neg hx]
      · rw [List.filter_cons_of_neg (by simp [hyv]),
          List.filter_cons_of_neg (by simp [hyv]), ih hys]

theorem sortStable_foldl_filter (s : ℚ) (l : List ((List Nat) × ℚ)) :
    ∀ acc, List.Pairwise (fun a b => b.2 ≤ a.2) acc →
      (l.foldl (insertSorted scoreDesc) acc).filter (fun a => a.2 = s)
        = acc.filter (fun a => a.2 = s) ++ l.filter (fun a => a.2 = s) := by
  induction l with
  | nil => intro acc _; simp
  | cons x xs ih =>
    intro acc hacc
    rw [List.foldl_cons, ih _ (insertSorted_sorted_desc x acc hacc),
      insertSorted_filter_desc s x acc hacc]
    by_cases hx : x.2 = s
    · rw [if_pos hx, List.filter_cons_of_pos (by simp [hx]), List.append_assoc,
        List.singleton_append]
    · rw [if_neg hx, List.filter_cons_of_neg (by simp [hx])]

/-- Python's stable descending sort preserves, at every score value, the
original relative order of the equal-score elements. -/
theorem sortStable_filter_desc (s : ℚ) (l : List ((List Nat) × ℚ)) :
    (sortStable scoreDesc l).filter (fun a => a.2 = s)
      = l.filter (fun a => a.2 = s) := by
  have := sortStable_foldl_filter s l [] List.Pairwise.nil
  simpa [sortStable] using this

/-- C7: `rank_vehicle_routes` returns exactly the scored candidate
routes (as a permutation of the scored list, so every candidate appears
once, paired with the score `priority_weight / (1 + overlapCount)` and
the overlap count matches congested edges undirectedly), sorted by
descending score, and equal-score entries keep their original candidate
order (stability, expressed as filter preservation at every score). -/
theorem c7_rank_vehicle_routes_sorted_stable
    (vehicle : Vehicle) (congested_edges : List (Nat × Nat)) :
    List.Perm (rank_vehicle_routes vehicle congested_edges)
      (vehicle.candidate_routes.map (fun route =>
        (route, compute_route_priority (route_edges route) congested_edges
          vehicle.priority_weight)))
    ∧ List.Pairwise (fun a b => b.2 ≤ a.2)
        (rank_vehicle_routes vehicle congested_edges)
    ∧ (∀ p ∈ rank_vehicle_routes vehicle congested_edges,
        p.2 = compute_route_priority (route_edges p.1) congested_edges
          vehicle.priority_weight)
    ∧ (∀ s : ℚ, (rank_vehicle_routes vehicle congested_edges).filter
          (fun a => a.2 = s)
        = (vehicle.candidate_routes.map (fun route =>
            (route, compute_route_priority (route_edges route) congested_edges
              vehicle.priority_weight))).filter (fun a => a.2 = s)) := by
  refine ⟨sortStable_perm _ _, ?_, ?_, ?_⟩
  · exact sortStable_foldl_sorted_desc _ [] List.Pairwise.nil
  · intro p hp
    have hp2 : p ∈ vehicle.candidate_routes.map (fun route =>
        (route, compute_route_priority (route_edges route) congested_edges
          vehicle.priority_weight)) :=
      (mem_sortStable _ _ p).mp hp
    rcases List.mem_map.mp hp2 with ⟨route, _, rfl⟩
    rfl
  · intro s
    exact sortStable_filter_desc s _

/-! ### Python-dict lemmas -/

theorem dictGet_cons (kv : Nat × α) (d : Dict α) (k : Nat) :
    dictGet (kv :: d) k = if kv.1 = k then some kv.2 else dictGet d k := by
  by_cases h : kv.1 = k
  · simp [dictGet, List.find?_cons, h]
  · simp [dictGet, List.find?_cons, h]

theorem dictGet_dictInsert_self (d : Dict α) (k : Nat) (v : α) :
    dictGet (dictInsert d k v) k = some v := by
  unfold dictInsert
  by_cases h : (d.any (fun kv => kv.1 = k)) = true
  · rw [if_pos h]
    rcases List.any_eq_true.mp h with ⟨kv0, hm0, he0⟩
    clear h
    induction d with
    | nil => cases hm0
    | cons kv rest ih =>
      rw [List.map_cons, dictGet_cons]
      by_cases hk : kv.1 = k
      · rw [if_pos hk]
        simp
      · rw [if_neg hk]
        simp only [if_neg hk]
        rcases List.mem_cons.mp hm0 with rfl | hm2
        · exact absurd (of_decide_eq_true he0) hk
        · exact ih hm2
  · rw [if_neg h]
    have hnone : ∀ kv ∈ d, ¬ kv.1 = k := by
      intro kv hm he
      exact h (List.any_eq_true.mpr ⟨kv, hm, decide_eq_true he⟩)
    clear h
    induction d with
    | nil => simp [dictGet]
    | cons kv rest ih =>
      rw [List.cons_append, dictGet_cons,
        if_neg (hnone kv (List.mem_cons_self kv rest))]
      exact ih (fun kv2 hm => hnone kv2 (List.mem_cons_of_mem _ hm))

theorem dictGet_dictInsert_ne (d : Dict α) (k : Nat) (v : α) (k2 : Nat)
    (hne : k2 ≠ k) :
    dictGet (dictInsert d k v) k2 = dictGet d k2 := by
  unfold dictInsert
  by_cases h : (d.any (fun kv => kv.1 = k)) = true
  · rw [if_pos h]
    clear h
    induction d with
    | nil => rfl
    | cons kv rest ih =>
      rw [List.map_cons, dictGet_cons, dictGet_cons]
      by_cases hk : kv.1 = k
      · rw [if_pos hk, if_neg (fun he => hne he.symm), if_neg (by omega)]
        exact ih
      · rw [if_neg hk]
        by_cases hk2 : kv.1 = k2
        · rw [if_pos hk2, if_pos hk2]
        · rw [if_neg hk2, if_neg hk2]
          exact ih
  · rw [if_neg h]
    clear h
    induction d with
    | nil =>
      have hk : ¬ k = k2 := fun he => hne he.symm
      simp [dictGet, List.find?_cons, hk]
    | cons kv rest ih =>
      rw [List.cons_append, dictGet_cons, dictGet_cons]
      by_cases hk2 : kv.1 = k2
      · rw [if_pos hk2, if_pos hk2]
      · rw [if_neg hk2, if_neg hk2]
        exact ih

theorem mem_dictKeys_dictInsert (d : Dict α) (k : Nat) (v : α) (key : Nat) :
    key ∈ dictKeys (dictInsert d k v) ↔ key ∈ dictKeys d ∨ key = k := by
  unfold dictInsert
  by_cases h : (d.any (fun kv => kv.1 = k)) = true
  · rw [if_pos h]
    have hkeys : dictKeys (d.map (fun kv => if kv.1 = k then (k, v) else kv))
        = dictKeys d := by
      unfold dictKeys
      rw [List.map_map]
      apply List.map_congr_left
      intro kv _
      by_cases hk : kv.1 = k
      · simp [Function.comp, hk]
      · simp [Function.comp, hk]
    rw [hkeys]
    constructor
    · exact Or.inl
    · rintro (hm | rfl)
      · exact hm
      · rcases List.any_eq_true.mp h with ⟨kv0, hm0, he0⟩
        have : kv0.1 = key := of_decide_eq_true he0
        rw [← this]
        exact List.mem_map_of_mem Prod.fst hm0
  · rw [if_neg h]
    unfold dictKeys
    rw [List.map_append]
    simp [eq_comm]

/-- `(a :: l).getLast?` made explicit. -/
theorem getLast?_cons_eq (a : α) (l : List α) :
    (a :: l).getLast? = some (l.getLast?.getD a) := by
  cases l with
  | nil => rfl
  | cons b m =>
    rw [List.getLast?_cons_cons]
    cases hl : (b :: m).getLast? with
    | none => exact absurd (List.getLast?_eq_none_iff.mp hl) (by simp)
    | some z => simp

/-! ### Decode lemmas -/

/-- Full characterisation of `decode_solution`'s recursion: on input
whose selected variables all resolve (vehicle index in range, route
index in range), it succeeds, and the value stored for each key is the
route of the *last* selected variable-map entry with that key
(last-write-wins in `variable_map` order); a key is present iff some
selected entry carries it. -/
theorem decodeGo_spec (sample : Var → Nat) (vehicles : List Vehicle) :
    ∀ (vmap : List Var) (acc : Dict (List Nat)),
      (∀ p ∈ vmap, sample p = 1 →
        ∃ w, vehicles[p.1]? = some w ∧ p.2 < w.candidate_routes.length) →
      ∃ d, decodeGo sample vehicles vmap acc = some d
        ∧ (∀ key, dictGet d key =
            ((vmap.filter (fun p => decide (p.1 = key)
                && decide (sample p = 1))).getLast?).elim
              (dictGet acc key) (fun p => some (routeOf vehicles p)))
        ∧ (∀ key, key ∈ dictKeys d ↔ key ∈ dictKeys acc
            ∨ ∃ p ∈ vmap, p.1 = key ∧ sample p = 1) := by
  intro vmap
  induction vmap with
  | nil =>
    intro acc _
    exact ⟨acc, rfl, fun key => by simp, fun key => by simp⟩
  | cons p rest ih =>
    intro acc hwf
    by_cases hsel : sample p = 1
    · obtain ⟨w, hw, hlen⟩ := hwf p (List.mem_cons_self _ _) hsel
      have hroute : w.candidate_routes[p.2]? = some (w.candidate_routes.getD p.2 []) := by
        rw [List.getD_eq_getElem?_getD, List.getElem?_eq_getElem hlen]
        rfl
      have hrofp : routeOf vehicles p = w.candidate_routes.getD p.2 [] := by
        unfold routeOf
        rw [hw]
      have hstep : decodeGo sample vehicles (p :: rest) acc
          = decodeGo sample vehicles rest
              (dictInsert acc p.1 (w.candidate_routes.getD p.2 [])) := by
        rw [show decodeGo sample vehicles (p :: rest) acc =
          (if sample p = 1 then
            match vehicles[p.1]? with
            | none => none
            | some v =>
              match v.candidate_routes[p.2]? with
              | none => none
              | some route =>
                  decodeGo sample vehicles rest (dictInsert acc p.1 route)
          else decodeGo sample vehicles rest acc) from rfl]
        rw [if_pos hsel, hw]
        show (match w.candidate_routes[p.2]? with
          | none => none
          | some route =>
              decodeGo sample vehicles rest (dictInsert acc p.1 route)) = _
        rw [hroute]
      rw [hstep]
      obtain ⟨d, hd, hget, hkeys⟩ :=
        ih (dictInsert acc p.1 (w.candidate_routes.getD p.2 []))
          (fun q hq hs => hwf q (List.mem_cons_of_mem _ hq) hs)
      refine ⟨d, hd, ?_, ?_⟩
      · intro key
        rw [hget key]
        by_cases hkey : p.1 = key
        · rw [List.filter_cons_of_pos (by simp [hkey, hsel]), getLast?_cons_eq]
          cases hfr : (rest.filter (fun q => decide (q.1 = key)
              && decide (sample q = 1))).getLast? with
          | none =>
            simp only [hfr, Option.elim, Option.getD]
            rw [← hkey, dictGet_dictInsert_self, hrofp]
          | some q =>
            simp only [hfr, Option.elim, Option.getD]
        · rw [List.filter_cons_of_neg (by simp [hkey])]
          cases hfr : (rest.filter (fun q => decide (q.1 = key)
              && decide (sample q = 1))).getLast? with
          | none =>
            simp only [hfr, Option.elim]
            exact dictGet_dictInsert_ne acc p.1 _ key (fun he => hkey he.symm)
          | some q =>
            simp only [hfr, Option.elim]
      · intro key
        rw [hkeys key, mem_dictKeys_dictInsert,
          List.exists_mem_cons_iff (fun q => q.1 = key ∧ sample q = 1)]
        constructor
        · rintro ((hm | rfl) | hr)
          · exact Or.inl hm
          · exact Or.inr (Or.inl ⟨rfl, hsel⟩)
          · exact Or.inr (Or.inr hr)
        · rintro (hm | (⟨he, _⟩ | hr))
          · exact Or.inl (Or.inl hm)
          · exact Or.inl (Or.inr he.symm)
          · exact Or.inr hr
    · have hstep : decodeGo sample vehicles (p :: rest) acc
          = decodeGo sample vehicles rest acc := by
        rw [show decodeGo sample vehicles (p :: rest) acc =
          (if sample p = 1 then
            match vehicles[p.1]? with
            | none => none
            | some v =>
              match v.candidate_routes[p.2]? with
              | none => none
              | some route =>
                  decodeGo sample vehicles rest (dictInsert acc p.1 route)
          else decodeGo sample vehicles rest acc) from rfl]
        rw [if_neg hsel]
      rw [hstep]
      obtain ⟨d, hd, hget, hkeys⟩ :=
        ih acc (fun q hq hs => hwf q (List.mem_cons_of_mem _ hq) hs)
      refine ⟨d, hd, ?_, ?_⟩
      · intro key
        rw [hget key, List.filter_cons_of_neg (by simp [hsel])]
      · intro key
        rw [hkeys key, List.exists_mem_cons_iff (fun q => q.1 = key ∧ sample q = 1)]
        constructor
        · rintro (hm | hr)
          · exact Or.inl hm
          · exact Or.inr (Or.inr hr)
        · rintro (hm | (⟨_, hs⟩ | hr))
          · exact Or.inl hm
          · exact absurd hs hsel
          · exact Or.inr hr

/-- C5: when the sample sets several of a vehicle's variables to 1,
`decode_solution` does not raise; it assigns the vehicle the candidate
route of the *last* set route index in the variable map's
vehicle-id-then-route-index order (last-write-wins by index order). -/
theorem c5_decode_last_write_wins
    (vehicles : List Vehicle) (sample : Var → Nat) (vid : Nat) (v : Vehicle)
    (hwf : ∀ p ∈ create_qubo_variables vehicles, sample p = 1 →
      ∃ w, vehicles[p.1]? = some w ∧ p.2 < w.candidate_routes.length)
    (hpos : vehicles[vid]? = some v)
    (hkeys : (create_qubo_variables vehicles).filter (fun p => p.1 = vid)
      = (List.range v.candidate_routes.length).map (fun r => (vid, r)))
    (hmulti : 1 < ((List.range v.candidate_routes.length).filter
        (fun r => sample (vid, r) = 1)).length)
    (rlast : Nat)
    (hlast : ((List.range v.candidate_routes.length).filter
        (fun r => sample (vid, r) = 1)).getLast? = some rlast) :
    ∃ d, decode_solution sample (create_qubo_variables vehicles) vehicles = some d
      ∧ dictGet d vid = v.candidate_routes[rlast]? := by
  obtain ⟨d, hd, hget, _⟩ :=
    decodeGo_spec sample vehicles (create_qubo_variables vehicles) [] hwf
  refine ⟨d, hd, ?_⟩
  rw [hget vid]
  have hff : (create_qubo_variables vehicles).filter
      (fun p => decide (p.1 = vid) && decide (sample p = 1))
    = ((List.range v.candidate_routes.length).filter
        (fun r => sample (vid, r) = 1)).map (fun r => (vid, r)) := by
    have h1 : (create_qubo_variables vehicles).filter
        (fun p => decide (p.1 = vid) && decide (sample p = 1))
      = ((create_qubo_variables vehicles).filter
          (fun p => decide (p.1 = vid))).filter
          (fun p => decide (sample p = 1)) := by
      rw [List.filter_filter]
      apply List.filter_congr
      intro p _
      rw [Bool.and_comm]
    rw [h1, hkeys, List.filter_map]
    congr 1
  rw [hff, List.getLast?_map, hlast]
  simp only [Option.map_some', Option.elim]
  have hro : routeOf vehicles (vid, rlast) = v.candidate_routes.getD rlast [] := by
    unfold routeOf
    rw [hpos]
  rw [hro]
  have hmem : rlast ∈ (List.range v.candidate_routes.length).filter
      (fun r => sample (vid, r) = 1) := List.mem_of_mem_getLast? hlast
  have hrl : rlast < v.candidate_routes.length :=
    List.mem_range.mp (List.mem_filter.mp hmem).1
  rw [List.getD_eq_getElem?_getD, List.getElem?_eq_getElem hrl]
  rfl

/-- Witness for C5: one vehicle with routes `[[5], [6]]` and a sample
setting both of its variables; the decoder stores route index 1. -/
theorem c5_decode_last_write_wins_witness :
    ∃ d, decode_solution (fun _ => 1)
        (create_qubo_variables [oneVehicleTwoRoutes]) [oneVehicleTwoRoutes]
        = some d
      ∧ dictGet d 0 = oneVehicleTwoRoutes.candidate_routes[1]? :=
  c5_decode_last_write_wins [oneVehicleTwoRoutes] (fun _ => 1) 0
    oneVehicleTwoRoutes
    (by
      intro p hp _
      have hcv : create_qubo_variables [oneVehicleTwoRoutes] = [(0, 0), (0, 1)] := by
        rfl
      rw [hcv] at hp
      fin_cases hp
      · exact ⟨oneVehicleTwoRoutes, rfl, by decide⟩
      · exact ⟨oneVehicleTwoRoutes, rfl, by decide⟩)
    rfl (by rfl) (by decide) 1 (by rfl)

/-- C2 (evidence of the divergence): on a vehicle with no candidate
routes — or one whose variables are all 0 in the sample —
`select_preferred_routes` covers the vehicle id with value `none`, but
`decode_solution` returns a mapping that omits the vehicle entirely
(its key list is empty, not `[0]`), instead of mapping it to `none`. -/
theorem c2_decode_omits_vehicles_without_selected_variable :
    select_preferred_routes [oneVehicleNoRoutes] [] = [(0, none)]
    ∧ decode_solution (fun _ => 0) (create_qubo_variables [oneVehicleNoRoutes])
        [oneVehicleNoRoutes] = some []
    ∧ decode_solution (fun _ => 0) (create_qubo_variables [oneVehicleTwoRoutes])
        [oneVehicleTwoRoutes] = some []
    ∧ dictKeys ([] : Dict (List Nat)) ≠ [oneVehicleNoRoutes.vehicle_id] :=
  ⟨by with_unfolding_all rfl, by with_unfolding_all rfl,
   by with_unfolding_all rfl, by decide⟩

end QTPR
